import Mathlib

/-!
Verification of the em5820 thermal-printer rasterization pipeline.

The C++ sources are shallowly embedded:
* `dither_image` (main.cpp, `dither_image`): Floyd-Steinberg error-diffusion
  dithering fused with MSB-first bit packing.  The float samples of the C++
  code are modelled with exact rationals; machine bytes with `Nat`.
* `scaled_width` (main.cpp, `load_and_process_image`): the resampler's
  output-width computation, with the float scale modelled as an exact rational.
* `rgb_to_gray` (main.cpp, `rgb_to_gray`): gamma-corrected luminance, modelled
  over the reals with `Real.rpow` for the `1/2.2` exponent.
* `print_bitmap_bytes`, text-style encoders (printer.hpp, print_text.cpp):
  the byte frames of the ESC/POS command protocol.
-/

namespace EM5820

/-! ### Ditherer and bit packer (main.cpp, `dither_image`) -/

/-- `bytes_per_row = (width + 7) / 8` from main.cpp line 29. -/
def bytesPerRow (width : ℕ) : ℕ := (width + 7) / 8

/-- State of the imperative dithering procedure: `caller` is the caller's
`grayscale` vector (passed by const reference, never written), `working` is the
private `working_copy`, `bitmap` the output byte vector. -/
structure DitherState where
  caller : List ℚ
  working : List ℚ
  bitmap : List ℕ

/-- `working_copy[i] += d`, the error-diffusion update of main.cpp. -/
def diffuse (s : List ℚ) (i : ℕ) (d : ℚ) : List ℚ := s.set i (s.getD i 0 + d)

/-- `bitmap[byte_idx] |= 1 << bit_idx` with `byte_idx = y * bytes_per_row + x/8`
and `bit_idx = 7 - x % 8` (main.cpp lines 43-45). -/
def setBlackBit (bitmap : List ℕ) (width y x : ℕ) : List ℕ :=
  bitmap.set (y * bytesPerRow width + x / 8)
    (bitmap.getD (y * bytesPerRow width + x / 8) 0 ||| (1 <<< (7 - x % 8)))

/-- One iteration of the pixel loop of `dither_image` (main.cpp lines 33-58):
quantize with the strict `> 0.5` test, set the output bit when the quantized
value is `0.0`, then diffuse the error with the Floyd-Steinberg kernel to the
in-bounds neighbours. -/
def ditherPixel (width height : ℕ) (s : DitherState) (p : ℕ × ℕ) : DitherState :=
  let y := p.1
  let x := p.2
  let idx := y * width + x
  let old_pixel := s.working.getD idx 0
  let new_pixel : ℚ := if old_pixel > 1/2 then 1 else 0
  let error := old_pixel - new_pixel
  let bitmap := if new_pixel < 1/2 then setBlackBit s.bitmap width y x else s.bitmap
  let w1 := if x + 1 < width then diffuse s.working (idx + 1) (error * 7 / 16) else s.working
  let w2 := if y + 1 < height then
      (if 0 < x then diffuse w1 (idx + width - 1) (error * 3 / 16) else w1) else w1
  let w3 := if y + 1 < height then diffuse w2 (idx + width) (error * 5 / 16) else w2
  let w4 := if y + 1 < height ∧ x + 1 < width then
      diffuse w3 (idx + width + 1) (error * 1 / 16) else w3
  ⟨s.caller, w4, bitmap⟩

/-- The pixels `(y, x)` visited by the row-major double loop of `dither_image`
(`for y` outer, `for x` inner). -/
def pixelList (width height : ℕ) : List (ℕ × ℕ) :=
  (List.range height).flatMap fun y => (List.range width).map fun x => (y, x)

/-- The final state of `dither_image`: the working copy starts as a copy of the
caller's grayscale vector, the bitmap as `bytes_per_row * height` zero bytes
(main.cpp lines 26-30), and the pixel loop runs in row-major order. -/
def ditherState (grayscale : List ℚ) (width height : ℕ) : DitherState :=
  (pixelList width height).foldl (ditherPixel width height)
    ⟨grayscale, grayscale, List.replicate (bytesPerRow width * height) 0⟩

/-- `dither_image` (main.cpp lines 23-63): returns the packed output bitmap. -/
def dither_image (grayscale : List ℚ) (width height : ℕ) : List ℕ :=
  (ditherState grayscale width height).bitmap

/-! ### Resampler dimensions (main.cpp, `load_and_process_image`) -/

/-- Round a rational to the nearest integer, ties to even: the rounding of
the scaled binary32 significand. -/
def roundMantissa (x : ℚ) : ℚ :=
  if x - ⌊x⌋ < 1/2 then (⌊x⌋ : ℚ)
  else if x - ⌊x⌋ > 1/2 then (⌊x⌋ : ℚ) + 1
  else if ⌊x⌋ % 2 = 0 then (⌊x⌋ : ℚ) else (⌊x⌋ : ℚ) + 1

/-- Binary32 round-to-nearest-even of a positive rational in the normal
range: scale into the 24-bit significand range `[2^23, 2^24)` using the
binade exponent `Int.log 2 x`, round, and scale back.  This models every
`float` operation of `load_and_process_image`, whose values all lie well
inside the normal range. -/
def rn32 (x : ℚ) : ℚ :=
  if x ≤ 0 then 0
  else roundMantissa (x / 2 ^ (Int.log 2 x - 23)) * 2 ^ (Int.log 2 x - 23)

/-- `scale` from main.cpp lines 83-87: `1.0f`, or the binary32 quotient
`static_cast<float>(max_width) / width` when the image is wider than
`max_width`: both operands are converted to `float` and the division result
is rounded. -/
def computeScale (width max_width : ℕ) : ℚ :=
  if width > max_width then rn32 (rn32 max_width / rn32 width) else 1

/-- `scaled_width = static_cast<int>(width * scale)` (main.cpp line 89):
`width` is converted to `float`, the product is a rounded binary32
multiplication, and the cast truncates the non-negative result (`Int.floor`). -/
def scaled_width_raw (width max_width : ℕ) : ℕ :=
  (⌊rn32 (rn32 width * computeScale width max_width)⌋).toNat

/-- `scaled_width` after rounding down to a multiple of 8 and clamping 0 to 8
(main.cpp lines 93-94). -/
def scaled_width (width max_width : ℕ) : ℕ :=
  if (scaled_width_raw width max_width / 8) * 8 = 0 then 8
  else (scaled_width_raw width max_width / 8) * 8

/-! ### Luminance (main.cpp, `rgb_to_gray`) -/

/-- The luma `0.299*r + 0.587*g + 0.114*b` (main.cpp line 17), exact over ℚ. -/
def luma (r g b : ℕ) : ℚ := (299 * r + 587 * g + 114 * b : ℚ) / 1000

/-- `rgb_to_gray` (main.cpp lines 15-20): `pow(gray / 255, 1 / 2.2)`. -/
noncomputable def rgb_to_gray (r g b : ℕ) : ℝ :=
  ((luma r g b : ℝ) / 255) ^ ((1 : ℝ) / 2.2)

/-! ### Command encoder (printer.hpp, print_text.cpp) -/

/-- `Printer::BitmapMode` (printer.hpp line 13). -/
inductive BitmapMode
| NORMAL
| WIDE
| TALL
| HUGE

/-- `static_cast<uint8_t>(mode)`: the enum ordinal. -/
def BitmapMode.toByte : BitmapMode → ℕ
| NORMAL => 0
| WIDE => 1
| TALL => 2
| HUGE => 3

/-- The byte stream emitted by `Printer::print_bitmap` (printer.hpp lines
142-153): the 8-byte header followed by the packed payload (the two
`write_bytes` calls send the header and then the payload). -/
def print_bitmap_bytes (mode : BitmapMode) (width height : ℕ) (bitmap : List ℕ) : List ℕ :=
  [0x1d, 0x76, 0x30, mode.toByte,
   (width / 8) &&& 0xff, ((width / 8) >>> 8) &&& 0xff,
   height &&& 0xff, (height >>> 8) &&& 0xff] ++ bitmap

/-- `Printer::enable_bold` (printer.hpp line 163). -/
def enable_bold (optbit : ℕ) : ℕ := optbit ||| 0x08

/-- `Printer::enable_double_height` (printer.hpp line 167). -/
def enable_double_height (optbit : ℕ) : ℕ := optbit ||| 0x10

/-- `Printer::enable_double_wide` (printer.hpp line 171). -/
def enable_double_wide (optbit : ℕ) : ℕ := optbit ||| 0x20

/-- `Printer::enable_underline` (printer.hpp line 175). -/
def enable_underline (optbit : ℕ) : ℕ := optbit ||| 0x80

/-- The text formatting byte built by print_text.cpp lines 107-111. -/
def buildFormat (bold underline double_width double_height : Bool) : ℕ :=
  let f0 : ℕ := 0
  let f1 := if bold then enable_bold f0 else f0
  let f2 := if underline then enable_underline f1 else f1
  let f3 := if double_width then enable_double_wide f2 else f2
  if double_height then enable_double_height f3 else f3

/-- `Printer::set_print_text_type` frame (printer.hpp lines 113-115). -/
def set_print_text_type (print_type : ℕ) : List ℕ := [0x1b, 0x21, print_type]

/-- The style bytes print_text.cpp emits (lines 113-115): the frame is sent
only when the format byte is non-zero. -/
def styleFrames (bold underline double_width double_height : Bool) : List ℕ :=
  if buildFormat bold underline double_width double_height ≠ 0 then
    set_print_text_type (buildFormat bold underline double_width double_height)
  else []

/-! ### Standalone bit packer (the bit-placement of main.cpp lines 41-46) -/

/-- Byte `k` of row `y` of the packed bitmap: the OR of `1 << (7 - i)` over the
in-bounds black pixels `x = 8*k + i` of the group, exactly the accumulation
that `dither_image` performs into `bitmap[y * bytes_per_row + x/8]`. -/
def packByte (black : ℕ → ℕ → Bool) (width y k : ℕ) : ℕ :=
  (List.range 8).foldl
    (fun acc i => if 8 * k + i < width ∧ black (8 * k + i) y = true then
        acc ||| (1 <<< (7 - i)) else acc) 0

/-- The packed bitmap of a MonoRaster given as a bit predicate `black`:
byte `j` covers row `j / bytes_per_row`, byte group `j % bytes_per_row`. -/
def packBits (black : ℕ → ℕ → Bool) (width height : ℕ) : List ℕ :=
  (List.range (bytesPerRow width * height)).map fun j =>
    packByte black width (j / bytesPerRow width) (j % bytesPerRow width)

/-- Modelled from the spec: the test-only unpack helper, absent from the
sources.  "The bit for pixel (x,y) is stored in byte `y*(width/8) + x/8` at bit
position `7 - (x mod 8)`". -/
def unpackBit (bytes : List ℕ) (width x y : ℕ) : Bool :=
  (bytes.getD (y * (width / 8) + x / 8) 0).testBit (7 - x % 8)

/-! ### List and bit helper lemmas -/

theorem getD_set_total {α : Type} (l : List α) (i j : ℕ) (v d : α) :
    (l.set i v).getD j d = if i = j ∧ j < l.length then v else l.getD j d := by
  simp only [List.getD_eq_getElem?_getD, List.getElem?_set]
  rcases eq_or_ne i j with rfl | hij
  · by_cases hj : i < l.length
    · simp [hj]
    · have hnone : l[i]? = none := List.getElem?_eq_none (by omega)
      simp [hj, hnone]
  · simp [hij]

theorem set_replicate {α : Type} : ∀ (n i : ℕ) (a : α),
    (List.replicate n a).set i a = List.replicate n a := by
  intro n
  induction n with
  | zero => intro i a; simp
  | succ n ih =>
    intro i a
    cases i with
    | zero => simp [List.replicate_succ]
    | succ i => simp [List.replicate_succ, List.set, ih]

theorem getD_replicate {α : Type} : ∀ (n i : ℕ) (a d : α),
    (List.replicate n a).getD i d = if i < n then a else d := by
  intro n
  induction n with
  | zero => intro i a d; simp
  | succ n ih =>
    intro i a d
    cases i with
    | zero => simp [List.replicate_succ]
    | succ i => simpa [List.replicate_succ] using ih i a d

theorem getD_range_map {α : Type} (N j : ℕ) (f : ℕ → α) (d : α) (hj : j < N) :
    (((List.range N).map f).getD j d) = f j := by
  simp [List.getD_eq_getElem?_getD, List.getElem?_map, List.getElem?_range hj]

theorem foldl_inv {α β : Type} {P : α → Prop} {f : α → β → α} :
    ∀ (l : List β) (s : α), (∀ t b, b ∈ l → P t → P (f t b)) → P s → P (l.foldl f s) := by
  intro l
  induction l with
  | nil => intro s _ hs; exact hs
  | cons b l ih =>
    intro s hstep hs
    exact ih (f s b) (fun t c hc ht => hstep t c (List.mem_cons_of_mem _ hc) ht)
      (hstep s b (List.mem_cons_self _ _) hs)

theorem testBit_one : ∀ (k : ℕ), Nat.testBit 1 k = decide (k = 0) := by
  intro k
  cases k with
  | zero => rfl
  | succ k => simp [Nat.testBit_succ]

theorem testBit_one_shiftLeft (m n : ℕ) : ((1 <<< m) : ℕ).testBit n = decide (n = m) := by
  rw [Nat.testBit_shiftLeft, testBit_one]
  by_cases h : m ≤ n
  · rcases eq_or_lt_of_le h with rfl | hlt
    · simp
    · have h1 : n - m ≠ 0 := by omega
      have h2 : n ≠ m := by omega
      simp [h, h1, h2]
  · have h2 : n ≠ m := by omega
    have h3 : ¬ (n ≥ m) := h
    simp [h3, h2]

/-- Bytes built by OR-ing `1 << (7 - j)` for selected `j`: which bits end set. -/
theorem testBit_orFold (P : ℕ → Prop) [DecidablePred P] :
    ∀ (l : List ℕ) (a n : ℕ),
      ((l.foldl (fun acc j => if P j then acc ||| (1 <<< (7 - j)) else acc) a).testBit n)
        = (a.testBit n || l.any (fun j => decide (P j) && decide (7 - j = n))) := by
  intro l
  induction l with
  | nil => intro a n; simp
  | cons x l ih =>
    intro a n
    rw [List.foldl_cons, ih]
    by_cases hx : P x
    · rw [if_pos hx, Nat.testBit_or, testBit_one_shiftLeft, List.any_cons]
      have hc : decide (n = 7 - x) = decide ((7 : ℕ) - x = n) := by
        simp [eq_comm]
      rw [hc]
      simp [hx, Bool.or_assoc]
    · rw [if_neg hx, List.any_cons]
      simp [hx]

theorem and_255_eq_mod (x : ℕ) : x &&& 255 = x % 256 := by
  have h := Nat.and_pow_two_sub_one_eq_mod x 8
  norm_num at h
  exact h

/-- Uniqueness of the row/byte decomposition `y * b + r` with `r < b`. -/
theorem row_byte_inj {b y r z s : ℕ} (hb : 0 < b) (hr : r < b) (hs : s < b)
    (h : y * b + r = z * b + s) : y = z ∧ r = s := by
  have hy : (y * b + r) / b = y := by
    rw [Nat.mul_comm y b, Nat.mul_add_div hb, Nat.div_eq_of_lt hr, Nat.add_zero]
  have hz : (z * b + s) / b = z := by
    rw [Nat.mul_comm z b, Nat.mul_add_div hb, Nat.div_eq_of_lt hs, Nat.add_zero]
  have hyz : y = z := by rw [← hy, h, hz]
  subst hyz
  exact ⟨rfl, by omega⟩

/-! ### Dithering invariants -/

theorem mem_pixelList {width height : ℕ} {p : ℕ × ℕ} :
    p ∈ pixelList width height ↔ p.1 < height ∧ p.2 < width := by
  rcases p with ⟨y, x⟩
  simp only [pixelList, List.mem_flatMap, List.mem_map, List.mem_range]
  constructor
  · rintro ⟨a, ha, b, hb, hba⟩
    obtain ⟨rfl, rfl⟩ := Prod.mk.injEq .. ▸ hba
    exact ⟨ha, hb⟩
  · rintro ⟨hy, hx⟩
    exact ⟨y, hy, x, hx, rfl⟩

theorem ditherPixel_caller (width height : ℕ) (s : DitherState) (p : ℕ × ℕ) :
    (ditherPixel width height s p).caller = s.caller := rfl

theorem setBlackBit_length (bitmap : List ℕ) (width y x : ℕ) :
    (setBlackBit bitmap width y x).length = bitmap.length := by
  simp [setBlackBit]

theorem ditherPixel_bitmap_length (width height : ℕ) (s : DitherState) (p : ℕ × ℕ) :
    (ditherPixel width height s p).bitmap.length = s.bitmap.length := by
  simp only [ditherPixel]
  split
  · norm_num
  · norm_num [setBlackBit_length]

theorem ditherFold_caller (width height : ℕ) (l : List (ℕ × ℕ)) (s : DitherState) :
    (l.foldl (ditherPixel width height) s).caller = s.caller :=
  foldl_inv (P := fun t => t.caller = s.caller) (f := ditherPixel width height) l s
    (fun t b _ ht => by simpa only [ditherPixel_caller] using ht) rfl

theorem ditherFold_bitmap_length (width height : ℕ) (l : List (ℕ × ℕ)) (s : DitherState) :
    (l.foldl (ditherPixel width height) s).bitmap.length = s.bitmap.length :=
  foldl_inv (P := fun t => t.bitmap.length = s.bitmap.length) (f := ditherPixel width height)
    l s (fun t b _ ht => by simpa only [ditherPixel_bitmap_length] using ht) rfl

/-- The output byte index of pixel `(x, y)` is inside the bitmap buffer. -/
theorem byteIdx_lt {width height y x : ℕ} (hy : y < height) (hx : x < width) :
    y * bytesPerRow width + x / 8 < bytesPerRow width * height := by
  have h8 : x / 8 < bytesPerRow width := by
    simp only [bytesPerRow]
    omega
  calc y * bytesPerRow width + x / 8
      < (y + 1) * bytesPerRow width := by
        rw [Nat.succ_mul]
        omega
    _ ≤ height * bytesPerRow width := Nat.mul_le_mul_right _ hy
    _ = bytesPerRow width * height := Nat.mul_comm ..

theorem idx_lt {width height y x : ℕ} (hy : y < height) (hx : x < width) :
    y * width + x < width * height := by
  calc y * width + x < (y + 1) * width := by rw [Nat.succ_mul]; omega
    _ ≤ height * width := Nat.mul_le_mul_right _ hy
    _ = width * height := Nat.mul_comm ..

theorem testBit_setBlackBit_mono {bitmap : List ℕ} {width y x m j : ℕ}
    (h : (bitmap.getD m 0).testBit j = true) :
    ((setBlackBit bitmap width y x).getD m 0).testBit j = true := by
  simp only [setBlackBit]
  rw [getD_set_total]
  split
  · rename_i hc
    obtain ⟨he, _⟩ := hc
    subst he
    rw [Nat.testBit_or, h]
    simp
  · exact h

theorem testBit_setBlackBit_self {bitmap : List ℕ} {width y x : ℕ}
    (h : y * bytesPerRow width + x / 8 < bitmap.length) :
    ((setBlackBit bitmap width y x).getD (y * bytesPerRow width + x / 8) 0).testBit
      (7 - x % 8) = true := by
  simp only [setBlackBit]
  rw [getD_set_total, if_pos ⟨rfl, h⟩, Nat.testBit_or, testBit_one_shiftLeft]
  simp

theorem diffuse_replicate_zero (n i : ℕ) :
    diffuse (List.replicate n (0 : ℚ)) i 0 = List.replicate n 0 := by
  unfold diffuse
  have h : (List.replicate n (0 : ℚ)).getD i 0 + 0 = 0 := by
    rw [getD_replicate]
    split <;> norm_num
  rw [h, set_replicate]

theorem diffuse_replicate_one (n i : ℕ) :
    diffuse (List.replicate n (1 : ℚ)) i 0 = List.replicate n 1 := by
  unfold diffuse
  by_cases hi : i < n
  · have h : (List.replicate n (1 : ℚ)).getD i 0 + 0 = 1 := by
      rw [getD_replicate, if_pos hi]
      norm_num
    rw [h, set_replicate]
  · exact List.set_eq_of_length_le (by simpa using by omega)

/-- On an all-zero working copy a pixel quantizes to `0.0` with zero error:
the black bit is set and the working copy is unchanged. -/
theorem ditherPixel_zero (width height n : ℕ) (s : DitherState) (p : ℕ × ℕ)
    (hw : s.working = List.replicate n 0) :
    ditherPixel width height s p =
      ⟨s.caller, List.replicate n 0, setBlackBit s.bitmap width p.1 p.2⟩ := by
  have hold : ∀ i : ℕ, (List.replicate n (0 : ℚ)).getD i 0 = 0 := by
    intro i
    rw [getD_replicate]
    split <;> rfl
  simp only [ditherPixel, hw, hold]
  norm_num [diffuse_replicate_zero]

/-- On an all-one working copy (with the pixel in range) a pixel quantizes to
`1.0` with zero error: no bit is set and the working copy is unchanged. -/
theorem ditherPixel_one (width height : ℕ) (s : DitherState) (p : ℕ × ℕ)
    (hp1 : p.1 < height) (hp2 : p.2 < width)
    (hw : s.working = List.replicate (width * height) 1) :
    ditherPixel width height s p = ⟨s.caller, List.replicate (width * height) 1, s.bitmap⟩ := by
  have hidx : p.1 * width + p.2 < width * height := idx_lt hp1 hp2
  have hold : (List.replicate (width * height) (1 : ℚ)).getD (p.1 * width + p.2) 0 = 1 := by
    rw [getD_replicate, if_pos hidx]
  simp only [ditherPixel, hw, hold]
  norm_num [diffuse_replicate_one]

theorem ditherFold_zero (width height n : ℕ) :
    ∀ (l : List (ℕ × ℕ)) (s : DitherState), s.working = List.replicate n 0 →
      (l.foldl (ditherPixel width height) s).working = List.replicate n 0 ∧
      ∀ m j, (s.bitmap.getD m 0).testBit j = true →
        ((l.foldl (ditherPixel width height) s).bitmap.getD m 0).testBit j = true := by
  intro l
  induction l with
  | nil => intro s hs; exact ⟨hs, fun m j h => h⟩
  | cons p l ih =>
    intro s hs
    rw [List.foldl_cons, ditherPixel_zero width height n s p hs]
    have ih2 := ih ⟨s.caller, List.replicate n 0, setBlackBit s.bitmap width p.1 p.2⟩ rfl
    exact ⟨ih2.1, fun m j h => ih2.2 m j (testBit_setBlackBit_mono h)⟩

theorem ditherFold_one (width height : ℕ) (s : DitherState)
    (hw : s.working = List.replicate (width * height) 1) :
    (pixelList width height).foldl (ditherPixel width height) s =
      ⟨s.caller, List.replicate (width * height) 1, s.bitmap⟩ := by
  refine foldl_inv (P := fun t => t = ⟨s.caller, List.replicate (width * height) 1, s.bitmap⟩)
    (f := ditherPixel width height) (pixelList width height) s ?_ ?_
  · intro t b hb ht
    obtain ⟨hb1, hb2⟩ := mem_pixelList.mp hb
    rw [ditherPixel_one width height t b hb1 hb2 (by rw [ht])]
    rw [ht]
  · rw [← hw]

/-- A dithering step either leaves the bitmap alone or sets the current
pixel's black bit. -/
theorem ditherPixel_bitmap_cases (width height : ℕ) (s : DitherState) (p : ℕ × ℕ) :
    (ditherPixel width height s p).bitmap = s.bitmap ∨
    (ditherPixel width height s p).bitmap = setBlackBit s.bitmap width p.1 p.2 := by
  simp only [ditherPixel]
  split
  · left
    norm_num
  · right
    norm_num

/-- Setting the black bit of an in-range pixel never touches the low-order
pad-bit positions of a row's final byte. -/
theorem testBit_setBlackBit_pad {width : ℕ} (hw8 : width % 8 ≠ 0) {bm : List ℕ} {y x z j : ℕ}
    (hx : x < width) (hj : j < 8 - width % 8)
    (h : (bm.getD (z * bytesPerRow width + (bytesPerRow width - 1)) 0).testBit j = false) :
    ((setBlackBit bm width y x).getD
        (z * bytesPerRow width + (bytesPerRow width - 1)) 0).testBit j = false := by
  simp only [setBlackBit]
  rw [getD_set_total]
  split
  · rename_i hc
    obtain ⟨he, hlt⟩ := hc
    have hbpr : 0 < bytesPerRow width := by
      unfold bytesPerRow
      omega
    have hx8 : x / 8 < bytesPerRow width := by
      unfold bytesPerRow
      omega
    have hlast : bytesPerRow width - 1 < bytesPerRow width := by omega
    obtain ⟨hyz, hxe⟩ := row_byte_inj hbpr hx8 hlast he
    have hxm : x % 8 < width % 8 := by
      unfold bytesPerRow at hxe
      omega
    have hne : j ≠ 7 - x % 8 := by omega
    rw [← he] at h
    rw [Nat.testBit_or, h, testBit_one_shiftLeft]
    simp [hne]
  · exact h

theorem ditherFold_pad (width height : ℕ) (hw8 : width % 8 ≠ 0) (l : List (ℕ × ℕ))
    (s : DitherState) (hl : ∀ p ∈ l, p.2 < width)
    (hs : ∀ z j, j < 8 - width % 8 →
      (s.bitmap.getD (z * bytesPerRow width + (bytesPerRow width - 1)) 0).testBit j = false) :
    ∀ z j, j < 8 - width % 8 →
      ((l.foldl (ditherPixel width height) s).bitmap.getD
          (z * bytesPerRow width + (bytesPerRow width - 1)) 0).testBit j = false := by
  refine foldl_inv (P := fun t => ∀ z j, j < 8 - width % 8 →
      (t.bitmap.getD (z * bytesPerRow width + (bytesPerRow width - 1)) 0).testBit j = false)
    (f := ditherPixel width height) l s ?_ hs
  intro t b hb ht z j hj
  rcases ditherPixel_bitmap_cases width height t b with hcase | hcase
  · rw [hcase]
    exact ht z j hj
  · rw [hcase]
    exact testBit_setBlackBit_pad hw8 (hl b hb) hj (ht z j hj)

/-! ### Claim theorems: dithering -/

/-- C9: dithering never mutates the caller's grayscale raster; all error
diffusion happens on the private working copy, so after `dither_image` the
caller's samples are their pre-dither values. -/
theorem dither_preserves_caller (grayscale : List ℚ) (width height : ℕ) :
    (ditherState grayscale width height).caller = grayscale := by
  unfold ditherState
  rw [ditherFold_caller]

/-- C1 counterexample: a raster of width 4 (not a multiple of 8) does not make
the dither-and-pack operation fail; it successfully produces one padded byte
(`0xF0`, the four pixel bits set, the four pad bits clear). -/
theorem pack_width4_succeeds : dither_image (List.replicate 4 (0 : ℚ)) 4 1 = [0xf0] := by
  have hp : pixelList 4 1 = [(0, 0), (0, 1), (0, 2), (0, 3)] := rfl
  unfold dither_image ditherState
  rw [hp]
  norm_num [List.foldl, ditherPixel, setBlackBit, diffuse, bytesPerRow,
    List.getD_cons_zero, List.getD_cons_succ, List.set_cons_zero, List.set_cons_succ,
    List.replicate_succ]
  decide

/-- C1 (amended): the combined dither-and-pack operation never fails; it
always emits `ceil(width/8)` bytes per row, which equals `width/8` whenever
the width is a multiple of 8. -/
theorem dither_pack_length (grayscale : List ℚ) (width height : ℕ) :
    (dither_image grayscale width height).length = bytesPerRow width * height ∧
    (width % 8 = 0 → bytesPerRow width = width / 8) := by
  constructor
  · unfold dither_image ditherState
    rw [ditherFold_bitmap_length]
    simp
  · intro h
    unfold bytesPerRow
    omega

/-- Witness for `dither_pack_length` at width 16, height 1. -/
theorem dither_pack_length_witness :
    (dither_image (List.replicate 16 (0 : ℚ)) 16 1).length = bytesPerRow 16 * 1 ∧
    16 % 8 = 0 ∧ bytesPerRow 16 = 16 / 8 :=
  ⟨(dither_pack_length (List.replicate 16 (0 : ℚ)) 16 1).1, by decide,
    (dither_pack_length (List.replicate 16 (0 : ℚ)) 16 1).2 (by decide)⟩

/-- C10: for every input raster and every dimensions, the dither-and-pack
operation returns exactly `ceil(width/8) * height` bytes, and for widths not a
multiple of 8 the unused low-order pad bits of each row's final byte are 0
(white): non-aligned widths are padded, not rejected. -/
theorem dither_pad_bits (grayscale : List ℚ) (width height : ℕ) :
    (dither_image grayscale width height).length = bytesPerRow width * height ∧
    (width % 8 ≠ 0 → ∀ y j, y < height → j < 8 - width % 8 →
      ((dither_image grayscale width height).getD
          (y * bytesPerRow width + (bytesPerRow width - 1)) 0).testBit j = false) := by
  constructor
  · unfold dither_image ditherState
    rw [ditherFold_bitmap_length]
    simp
  · intro hw8 y j _ hj
    unfold dither_image ditherState
    apply ditherFold_pad width height hw8 _ _ (fun p hp => (mem_pixelList.mp hp).2) _ y j hj
    intro z i _
    have hz : (List.replicate (bytesPerRow width * height) (0 : ℕ)).getD
        (z * bytesPerRow width + (bytesPerRow width - 1)) 0 = 0 := by
      rw [getD_replicate]
      split <;> rfl
    rw [hz]
    exact Nat.zero_testBit i

/-- Witness for `dither_pad_bits` at width 4, height 1: 1 byte, pad bits 0-3
clear. -/
theorem dither_pad_bits_witness :
    (dither_image (List.replicate 4 (0 : ℚ)) 4 1).length = bytesPerRow 4 * 1 ∧
    4 % 8 ≠ 0 ∧ (0 : ℕ) < 1 ∧ (3 : ℕ) < 8 - 4 % 8 ∧
    ((dither_image (List.replicate 4 (0 : ℚ)) 4 1).getD
        (0 * bytesPerRow 4 + (bytesPerRow 4 - 1)) 0).testBit 3 = false :=
  ⟨(dither_pad_bits (List.replicate 4 (0 : ℚ)) 4 1).1, by decide, by decide, by decide,
    (dither_pad_bits (List.replicate 4 (0 : ℚ)) 4 1).2 (by decide) 0 3 (by decide) (by decide)⟩

/-- C3: an all-black (`0.0`) input dithers to a bitmap with every pixel bit 1,
an all-white (`1.0`) input dithers to the all-zero bitmap, and in both cases
the working copy is left exactly equal to the input: no diffusion error is
introduced. -/
theorem dither_extremes (width height : ℕ) :
    (∀ x y, x < width → y < height →
      ((dither_image (List.replicate (width * height) 0) width height).getD
          (y * bytesPerRow width + x / 8) 0).testBit (7 - x % 8) = true) ∧
    (ditherState (List.replicate (width * height) 0) width height).working
      = List.replicate (width * height) 0 ∧
    dither_image (List.replicate (width * height) 1) width height
      = List.replicate (bytesPerRow width * height) 0 ∧
    (ditherState (List.replicate (width * height) 1) width height).working
      = List.replicate (width * height) 1 := by
  refine ⟨?_, ?_, ?_, ?_⟩
  · intro x y hx hy
    have hmem : (y, x) ∈ pixelList width height := mem_pixelList.mpr ⟨hy, hx⟩
    obtain ⟨l1, l2, hsplit⟩ := List.append_of_mem hmem
    unfold dither_image ditherState
    rw [hsplit, List.foldl_append, List.foldl_cons]
    set s0 : DitherState :=
      ⟨List.replicate (width * height) 0, List.replicate (width * height) 0,
        List.replicate (bytesPerRow width * height) 0⟩ with hs0
    set s1 := l1.foldl (ditherPixel width height) s0 with hs1
    have h1 : s1.working = List.replicate (width * height) 0 := by
      rw [hs1]
      exact (ditherFold_zero width height (width * height) l1 s0 rfl).1
    have hlen1 : s1.bitmap.length = bytesPerRow width * height := by
      rw [hs1, ditherFold_bitmap_length]
      simp [hs0]
    rw [ditherPixel_zero width height (width * height) s1 (y, x) h1]
    refine (ditherFold_zero width height (width * height) l2
      ⟨s1.caller, List.replicate (width * height) 0,
        setBlackBit s1.bitmap width (y, x).1 (y, x).2⟩ rfl).2 _ _ ?_
    apply testBit_setBlackBit_self
    rw [hlen1]
    exact byteIdx_lt hy hx
  · exact (ditherFold_zero width height (width * height) (pixelList width height) _ rfl).1
  · unfold dither_image ditherState
    rw [ditherFold_one width height _ rfl]
  · unfold ditherState
    rw [ditherFold_one width height _ rfl]

/-- Witness for `dither_extremes` at width 8, height 1, pixel (0,0). -/
theorem dither_extremes_witness :
    (0 : ℕ) < 8 ∧ (0 : ℕ) < 1 ∧
    ((dither_image (List.replicate (8 * 1) 0) 8 1).getD
        (0 * bytesPerRow 8 + 0 / 8) 0).testBit (7 - 0 % 8) = true :=
  ⟨by decide, by decide, (dither_extremes 8 1).1 0 0 (by decide) (by decide)⟩

/-- C2 counterexample: dithering the uniform exactly-0.5 raster of width 8,
height 2 does not give an all-white output: the very first pixel's bit is 1
(black), because `0.5 > 0.5` is false, the sample quantizes to `0.0`, and the
`0.0` quantization level is emitted as a black bit. -/
theorem half_gray_first_bit_black :
    ((dither_image (List.replicate 16 (1/2 : ℚ)) 8 2).getD 0 0).testBit 7 = true := by
  have hp : pixelList 8 2 = [(0, 0), (0, 1), (0, 2), (0, 3), (0, 4), (0, 5), (0, 6), (0, 7),
      (1, 0), (1, 1), (1, 2), (1, 3), (1, 4), (1, 5), (1, 6), (1, 7)] := rfl
  unfold dither_image ditherState
  rw [hp]
  norm_num [List.foldl, ditherPixel, setBlackBit, diffuse, bytesPerRow,
    List.getD_cons_zero, List.getD_cons_succ, List.set_cons_zero, List.set_cons_succ,
    List.replicate_succ]

/-- C2 (amended): dithering the uniform exactly-0.5 raster of width 8,
height 2 produces the alternating rows `0xAA`, `0x55`; ties at exactly 0.5
quantize to the `0.0` level under the strict `> 0.5` comparison, which maps to
the black output bit, so the first pixel is black. -/
theorem half_gray_output :
    dither_image (List.replicate 16 (1/2 : ℚ)) 8 2 = [0xaa, 0x55] := by
  have hp : pixelList 8 2 = [(0, 0), (0, 1), (0, 2), (0, 3), (0, 4), (0, 5), (0, 6), (0, 7),
      (1, 0), (1, 1), (1, 2), (1, 3), (1, 4), (1, 5), (1, 6), (1, 7)] := rfl
  unfold dither_image ditherState
  rw [hp]
  norm_num [List.foldl, ditherPixel, setBlackBit, diffuse, bytesPerRow,
    List.getD_cons_zero, List.getD_cons_succ, List.set_cons_zero, List.set_cons_succ,
    List.replicate_succ]
  decide

/-! ### Claim theorems: resampler, luminance, command encoder, bit packer -/

theorem two_zpow_pos (e : ℤ) : (0 : ℚ) < 2 ^ e := by positivity

theorem two_zpow_mono {m n : ℤ} (h : m ≤ n) : (2 : ℚ) ^ m ≤ (2 : ℚ) ^ n :=
  (zpow_le_zpow_iff_right₀ (by norm_num)).mpr h

theorem int_log_le_of_lt {x : ℚ} {e : ℤ} (hx : 0 < x) (h : x < (2 : ℚ) ^ (e + 1)) :
    Int.log 2 x ≤ e := by
  by_contra hc
  push_neg at hc
  have h1 : (2 : ℚ) ^ (e + 1) ≤ (2 : ℚ) ^ Int.log 2 x := two_zpow_mono (by omega)
  have h2 : ((2 : ℕ) : ℚ) ^ Int.log 2 x ≤ x := Int.zpow_log_le_self (by norm_num) hx
  norm_num at h2
  linarith

theorem le_int_log {x : ℚ} {e : ℤ} (h : (2 : ℚ) ^ e ≤ x) : e ≤ Int.log 2 x := by
  have hx : 0 < x := lt_of_lt_of_le (two_zpow_pos e) h
  by_contra hc
  push_neg at hc
  have h1 := Int.lt_zpow_succ_log_self (b := 2) (by norm_num) x
  norm_num at h1
  have h2 : (2 : ℚ) ^ (Int.log 2 x + 1) ≤ (2 : ℚ) ^ e := two_zpow_mono (by omega)
  linarith

theorem int_log_eq {x : ℚ} {e : ℤ} (hx : 0 < x) (h1 : (2 : ℚ) ^ e ≤ x)
    (h2 : x < (2 : ℚ) ^ (e + 1)) : Int.log 2 x = e :=
  le_antisymm (int_log_le_of_lt hx h2) (le_int_log h1)

theorem roundMantissa_intCast (n : ℤ) : roundMantissa (n : ℚ) = n := by
  unfold roundMantissa
  rw [Int.floor_intCast]
  norm_num

theorem roundMantissa_ge (x : ℚ) : x - 1/2 ≤ roundMantissa x := by
  unfold roundMantissa
  have h1 := Int.floor_le x
  have h2 := Int.lt_floor_add_one x
  split_ifs <;> linarith

theorem roundMantissa_le (x : ℚ) : roundMantissa x ≤ x + 1/2 := by
  unfold roundMantissa
  have h1 := Int.floor_le x
  have h2 := Int.lt_floor_add_one x
  split_ifs <;> linarith

/-- Half a unit in the last place of `x` is at most `x / 2^24`. -/
theorem half_ulp_le {x : ℚ} (hx : 0 < x) :
    (1/2 : ℚ) * 2 ^ (Int.log 2 x - 23) ≤ x / 2 ^ (24 : ℤ) := by
  have hL : ((2 : ℕ) : ℚ) ^ Int.log 2 x ≤ x := Int.zpow_log_le_self (by norm_num) hx
  norm_num at hL
  have e1 : (1/2 : ℚ) * 2 ^ (Int.log 2 x - 23) = 2 ^ (Int.log 2 x - 24) := by
    have h2 : (2 : ℚ) ^ (Int.log 2 x - 23) = 2 ^ (Int.log 2 x - 24) * 2 ^ (1 : ℤ) := by
      rw [← zpow_add₀ (by norm_num : (2 : ℚ) ≠ 0)]
      congr 1
      omega
    rw [h2, zpow_one]
    ring
  rw [e1, le_div_iff₀ (two_zpow_pos 24), ← zpow_add₀ (by norm_num : (2 : ℚ) ≠ 0)]
  have he : Int.log 2 x - 24 + 24 = Int.log 2 x := by omega
  rw [he]
  exact hL

/-- Rounding error bound: `rn32 x` overshoots by at most one part in `2^24`. -/
theorem rn32_le {x : ℚ} (hx : 0 < x) : rn32 x ≤ x + x / 2 ^ (24 : ℤ) := by
  unfold rn32
  rw [if_neg (not_le.mpr hx)]
  have hE : (0 : ℚ) < 2 ^ (Int.log 2 x - 23) := two_zpow_pos _
  have hmul := mul_le_mul_of_nonneg_right
    (roundMantissa_le (x / 2 ^ (Int.log 2 x - 23))) hE.le
  rw [add_mul, div_mul_cancel₀ _ hE.ne'] at hmul
  have hhalf := half_ulp_le hx
  linarith

/-- Rounding error bound: `rn32 x` undershoots by at most one part in `2^24`. -/
theorem rn32_ge {x : ℚ} (hx : 0 < x) : x - x / 2 ^ (24 : ℤ) ≤ rn32 x := by
  unfold rn32
  rw [if_neg (not_le.mpr hx)]
  have hE : (0 : ℚ) < 2 ^ (Int.log 2 x - 23) := two_zpow_pos _
  have hmul := mul_le_mul_of_nonneg_right
    (roundMantissa_ge (x / 2 ^ (Int.log 2 x - 23))) hE.le
  rw [sub_mul, div_mul_cancel₀ _ hE.ne'] at hmul
  have hhalf := half_ulp_le hx
  linarith

/-- Integers below `2^24` are exactly representable in binary32. -/
theorem rn32_natCast (n : ℕ) (h0 : 0 < n) (h24 : n < 2 ^ 24) : rn32 (n : ℚ) = n := by
  have hxpos : (0 : ℚ) < n := by exact_mod_cast h0
  unfold rn32
  rw [if_neg (not_le.mpr hxpos)]
  set L := Int.log 2 (n : ℚ) with hLdef
  have hub : L ≤ 23 := by
    apply int_log_le_of_lt hxpos
    have he : ((2 : ℚ) ^ (23 + 1 : ℤ)) = ((2 ^ 24 : ℕ) : ℚ) := by norm_num
    rw [he]
    exact_mod_cast h24
  have hlb : 0 ≤ L := by
    apply le_int_log
    rw [zpow_zero]
    exact_mod_cast h0
  have hnn : (0 : ℤ) ≤ 23 - L := by omega
  have hcast : (((n : ℤ) * 2 ^ (23 - L).toNat : ℤ) : ℚ) = (n : ℚ) * 2 ^ ((23 : ℤ) - L) := by
    push_cast
    rw [← zpow_natCast (2 : ℚ) (23 - L).toNat, Int.toNat_of_nonneg hnn]
  have hkey : (n : ℚ) / 2 ^ (L - 23) = (((n : ℤ) * 2 ^ (23 - L).toNat : ℤ) : ℚ) := by
    rw [hcast, div_eq_iff (two_zpow_pos (L - 23)).ne', mul_assoc,
      ← zpow_add₀ (by norm_num : (2 : ℚ) ≠ 0)]
    have he : (23 : ℤ) - L + (L - 23) = 0 := by omega
    rw [he, zpow_zero, mul_one]
  rw [hkey, roundMantissa_intCast, hcast, mul_assoc,
    ← zpow_add₀ (by norm_num : (2 : ℚ) ≠ 0)]
  have he2 : (23 : ℤ) - L + (L - 23) = 0 := by omega
  rw [he2, zpow_zero, mul_one]

/-- No downscaling: for `width ≤ max_width` (and `width` exactly representable)
the int-cast product is `width` itself. -/
theorem raw_upscale {width max_width : ℕ} (hw : 0 < width) (hwm : width ≤ max_width)
    (hw24 : width < 2 ^ 24) : scaled_width_raw width max_width = width := by
  unfold scaled_width_raw computeScale
  rw [if_neg (by omega : ¬ width > max_width), mul_one, rn32_natCast width hw hw24,
    rn32_natCast width hw hw24, Int.floor_natCast, Int.toNat_natCast]

/-- Downscaling: binary32 rounding keeps `(int)(width * scale)` within one of
`max_width`. -/
theorem raw_downscale {width max_width : ℕ} (hm : 0 < max_width) (hwm : max_width < width)
    (hw24 : width < 2 ^ 24) (hm22 : max_width < 2 ^ 22) :
    scaled_width_raw width max_width = max_width - 1 ∨
      scaled_width_raw width max_width = max_width := by
  have hw : 0 < width := by omega
  have hwQ : (0 : ℚ) < width := by exact_mod_cast hw
  have hmQ : (0 : ℚ) < max_width := by exact_mod_cast hm
  have hm24 : max_width < 2 ^ 24 := lt_trans hm22 (by norm_num)
  unfold scaled_width_raw computeScale
  rw [if_pos hwm, rn32_natCast width hw hw24, rn32_natCast max_width hm hm24]
  set q : ℚ := (max_width : ℚ) / width with hqdef
  have hq : 0 < q := div_pos hmQ hwQ
  have hs1 := rn32_ge hq
  have hs2 := rn32_le hq
  set s : ℚ := rn32 q with hsdef
  have hspos : 0 < s := by
    have hlt : q / 2 ^ (24 : ℤ) < q := by
      apply div_lt_self hq
      norm_num
    linarith
  have hwspos : 0 < (width : ℚ) * s := mul_pos hwQ hspos
  have hp1 := rn32_ge hwspos
  have hp2 := rn32_le hwspos
  set p : ℚ := rn32 ((width : ℚ) * s) with hpdef
  have hwq : (width : ℚ) * q = max_width := by
    rw [hqdef, mul_comm, div_mul_cancel₀ _ hwQ.ne']
  have hub : (width : ℚ) * s ≤ max_width + max_width / 2 ^ (24 : ℤ) := by
    have h1 : (width : ℚ) * s ≤ width * (q + q / 2 ^ (24 : ℤ)) :=
      mul_le_mul_of_nonneg_left hs2 hwQ.le
    have h2 : (width : ℚ) * (q + q / 2 ^ (24 : ℤ)) = max_width + max_width / 2 ^ (24 : ℤ) := by
      rw [mul_add, hwq, ← mul_div_assoc, hwq]
    linarith
  have hlb : (max_width : ℚ) - max_width / 2 ^ (24 : ℤ) ≤ width * s := by
    have h1 : (width : ℚ) * (q - q / 2 ^ (24 : ℤ)) ≤ width * s :=
      mul_le_mul_of_nonneg_left hs1 hwQ.le
    have h2 : (width : ℚ) * (q - q / 2 ^ (24 : ℤ)) = max_width - max_width / 2 ^ (24 : ℤ) := by
      rw [mul_sub, hwq, ← mul_div_assoc, hwq]
    linarith
  have hm22Q : (max_width : ℚ) < 4194304 := by
    have h := hm22
    norm_num at h
    exact_mod_cast h
  have h224 : ((2 : ℚ) ^ (24 : ℤ)) = 16777216 := by norm_num
  have hdivs : ((width : ℚ) * s) / 2 ^ (24 : ℤ)
      ≤ (max_width + max_width / 2 ^ (24 : ℤ)) / 2 ^ (24 : ℤ) := by
    gcongr
  rw [h224] at hp1 hp2 hub hlb hdivs
  have hub2 : p < max_width + 1 := by linarith
  have hlb2 : (max_width : ℚ) - 1 < p := by linarith
  have hf1 : (max_width : ℤ) - 1 ≤ ⌊p⌋ := by
    rw [Int.le_floor]
    push_cast
    linarith
  have hf2 : ⌊p⌋ ≤ (max_width : ℤ) := by
    have hflt : ⌊p⌋ < (max_width : ℤ) + 1 := by
      rw [Int.floor_lt]
      push_cast
      linarith
    omega
  omega

/-- C4 counterexample: with the program's default `max_width = 384`, an image
of width 592 does not resample to 384 (the largest multiple of 8 not
exceeding `min(592, 384)`): binary32 rounding gives
`(int)(592 * (384.0f / 592.0f)) = 383`, so the output width is 376. -/
theorem resampler_width_592 :
    scaled_width 592 384 = 376 ∧
    (if (min 592 384 / 8) * 8 = 0 then 8 else (min 592 384 / 8) * 8) = 384 := by
  constructor
  · unfold scaled_width scaled_width_raw computeScale
    rw [if_pos (by norm_num : 592 > 384), rn32_natCast 592 (by norm_num) (by norm_num),
      rn32_natCast 384 (by norm_num) (by norm_num)]
    have hq : ((384 : ℕ) : ℚ) / ((592 : ℕ) : ℚ) = 24/37 := by norm_num
    rw [hq]
    have hlog1 : Int.log 2 ((24 : ℚ)/37) = -1 := by
      apply int_log_eq (by norm_num) (by norm_num)
      norm_num
    have hs : rn32 ((24 : ℚ)/37) = 10882518 / 16777216 := by
      unfold rn32
      rw [if_neg (by norm_num), hlog1]
      have harg : ((24 : ℚ)/37) / 2 ^ ((-1 : ℤ) - 23) = 402653184/37 := by norm_num
      rw [harg]
      have hfl : ⌊(402653184/37 : ℚ)⌋ = 10882518 := by
        rw [Int.floor_eq_iff]
        norm_num
      unfold roundMantissa
      rw [hfl]
      norm_num
    rw [hs]
    have hprod : ((592 : ℕ) : ℚ) * (10882518 / 16777216) = 201326583/524288 := by norm_num
    rw [hprod]
    have hlog2 : Int.log 2 ((201326583 : ℚ)/524288) = 8 := by
      apply int_log_eq (by norm_num) (by norm_num)
      norm_num
    have hv : rn32 ((201326583 : ℚ)/524288) = 12582911 / 32768 := by
      unfold rn32
      rw [if_neg (by norm_num), hlog2]
      have harg : ((201326583 : ℚ)/524288) / 2 ^ ((8 : ℤ) - 23) = 201326583/16 := by norm_num
      rw [harg]
      have hfl : ⌊(201326583/16 : ℚ)⌋ = 12582911 := by
        rw [Int.floor_eq_iff]
        norm_num
      unfold roundMantissa
      rw [hfl]
      norm_num
    rw [hv]
    have hfl2 : ⌊(12582911 / 32768 : ℚ)⌋ = 383 := by
      rw [Int.floor_eq_iff]
      norm_num
    rw [hfl2]
    decide
  · norm_num

/-- C4 (amended): for a positive-size image (`width < 2^24`, exactly
representable) and positive `max_width < 2^22`: when `width ≤ max_width` the
output width is exactly the largest multiple of 8 not exceeding `width`,
clamped from 0 up to 8; when `width > max_width`, binary32 rounding of the
scale can lose one pixel, so the int-cast product is `max_width - 1` or
`max_width`; in either case the image is never enlarged. -/
theorem resampler_width (width max_width : ℕ) (hw : 0 < width) (hm : 0 < max_width)
    (hw24 : width < 2 ^ 24) (hm22 : max_width < 2 ^ 22) :
    (width ≤ max_width →
      scaled_width width max_width =
        if (width / 8) * 8 = 0 then 8 else (width / 8) * 8) ∧
    (max_width < width →
      scaled_width_raw width max_width = max_width - 1 ∨
        scaled_width_raw width max_width = max_width) ∧
    scaled_width width max_width ≤ max 8 width := by
  refine ⟨?_, ?_, ?_⟩
  · intro h
    unfold scaled_width
    rw [raw_upscale hw h hw24]
  · intro h
    exact raw_downscale hm h hw24 hm22
  · by_cases h : width ≤ max_width
    · unfold scaled_width
      rw [raw_upscale hw h hw24]
      split_ifs <;> omega
    · have hd := raw_downscale hm (by omega) hw24 hm22
      unfold scaled_width
      rcases hd with h1 | h1 <;> rw [h1] <;> split_ifs <;> omega

/-- Witness for `resampler_width`: a 100-wide image at `max_width = 384`
keeps width 96. -/
theorem resampler_width_witness :
    (0 : ℕ) < 100 ∧ (0 : ℕ) < 384 ∧ 100 < 2 ^ 24 ∧ 384 < 2 ^ 22 ∧ 100 ≤ 384 ∧
    scaled_width 100 384 = (if (100 / 8) * 8 = 0 then 8 else (100 / 8) * 8) :=
  ⟨by decide, by decide, by decide, by decide, by decide,
    (resampler_width 100 384 (by decide) (by decide) (by decide) (by decide)).1 (by decide)⟩

/-- C5: `print_bitmap` emits the 8-byte header `GS v 0`, the mode ordinal,
`width/8` and `height` in little-endian 16-bit order, then the payload; in
particular the NORMAL 16x2 block starts `1d 76 30 00 02 00 02 00`. -/
theorem print_bitmap_block (mode : BitmapMode) (width height : ℕ) (payload : List ℕ)
    (hw : width < 65536) (hh : height < 65536) :
    print_bitmap_bytes mode width height payload =
      [0x1d, 0x76, 0x30, mode.toByte, (width / 8) % 256, width / 8 / 256,
        height % 256, height / 256] ++ payload ∧
    print_bitmap_bytes BitmapMode.NORMAL 16 2 payload =
      [0x1d, 0x76, 0x30, 0x00, 0x02, 0x00, 0x02, 0x00] ++ payload := by
  constructor
  · unfold print_bitmap_bytes
    have h1 : (width / 8) &&& 255 = (width / 8) % 256 := and_255_eq_mod _
    have h2 : ((width / 8) >>> 8) &&& 255 = width / 8 / 256 := by
      rw [and_255_eq_mod, Nat.shiftRight_eq_div_pow]
      norm_num
      omega
    have h3 : height &&& 255 = height % 256 := and_255_eq_mod _
    have h4 : (height >>> 8) &&& 255 = height / 256 := by
      rw [and_255_eq_mod, Nat.shiftRight_eq_div_pow]
      norm_num
      omega
    rw [h1, h2, h3, h4]
  · rfl

/-- Witness for `print_bitmap_block` at mode WIDE, width 16, height 2. -/
theorem print_bitmap_block_witness :
    (16 : ℕ) < 65536 ∧ (2 : ℕ) < 65536 ∧
    print_bitmap_bytes BitmapMode.WIDE 16 2 [1, 2, 3, 4] =
      [0x1d, 0x76, 0x30, BitmapMode.WIDE.toByte, (16 / 8) % 256, 16 / 8 / 256,
        2 % 256, 2 / 256] ++ [1, 2, 3, 4] :=
  ⟨by decide, by decide,
    (print_bitmap_block BitmapMode.WIDE 16 2 [1, 2, 3, 4] (by decide) (by decide)).1⟩

/-- C8: the style byte is the OR of the masks bold=0x08, double_height=0x10,
double_width=0x20, underline=0x80, and the 3-byte `ESC !` frame is emitted
exactly when at least one flag is on. -/
theorem style_frames_spec (bold underline double_width double_height : Bool) :
    buildFormat bold underline double_width double_height =
      ((cond bold 0x08 0 ||| cond double_height 0x10 0) ||| cond double_width 0x20 0) |||
        cond underline 0x80 0 ∧
    styleFrames bold underline double_width double_height =
      (if bold || underline || double_width || double_height then
        [0x1b, 0x21, buildFormat bold underline double_width double_height]
      else []) := by
  revert bold underline double_width double_height
  decide

/-- C6: luminance is in `[0,1]`, monotone in each channel, `0` on black and
`1` on white. -/
theorem rgb_to_gray_props (r g b : ℕ) (hr : r ≤ 255) (hg : g ≤ 255) (hb : b ≤ 255) :
    (0 ≤ rgb_to_gray r g b ∧ rgb_to_gray r g b ≤ 1) ∧
    (∀ r2, r ≤ r2 → rgb_to_gray r g b ≤ rgb_to_gray r2 g b) ∧
    (∀ g2, g ≤ g2 → rgb_to_gray r g b ≤ rgb_to_gray r g2 b) ∧
    (∀ b2, b ≤ b2 → rgb_to_gray r g b ≤ rgb_to_gray r g b2) ∧
    rgb_to_gray 0 0 0 = 0 ∧ rgb_to_gray 255 255 255 = 1 := by
  have hz : (0 : ℝ) ≤ 1 / 2.2 := by norm_num
  have hbase : ∀ x y z : ℕ, (0 : ℝ) ≤ ((luma x y z : ℚ) : ℝ) / 255 := by
    intro x y z
    have h0 : (0 : ℚ) ≤ luma x y z := by
      unfold luma
      positivity
    have h0R : (0 : ℝ) ≤ ((luma x y z : ℚ) : ℝ) := by exact_mod_cast h0
    positivity
  have hmono : ∀ x y z x2 y2 z2 : ℕ, x ≤ x2 → y ≤ y2 → z ≤ z2 →
      rgb_to_gray x y z ≤ rgb_to_gray x2 y2 z2 := by
    intro x y z x2 y2 z2 hx hy hz2
    unfold rgb_to_gray
    apply Real.rpow_le_rpow (hbase x y z) _ hz
    have hl : luma x y z ≤ luma x2 y2 z2 := by
      unfold luma
      have c1 : (x : ℚ) ≤ x2 := by exact_mod_cast hx
      have c2 : (y : ℚ) ≤ y2 := by exact_mod_cast hy
      have c3 : (z : ℚ) ≤ z2 := by exact_mod_cast hz2
      gcongr
    have hlR : ((luma x y z : ℚ) : ℝ) ≤ ((luma x2 y2 z2 : ℚ) : ℝ) := by exact_mod_cast hl
    gcongr
  refine ⟨⟨Real.rpow_nonneg (hbase r g b) _, ?_⟩, fun r2 h => hmono r g b r2 g b h le_rfl le_rfl,
    fun g2 h => hmono r g b r g2 b le_rfl h le_rfl,
    fun b2 h => hmono r g b r g b2 le_rfl le_rfl h, ?_, ?_⟩
  · apply Real.rpow_le_one (hbase r g b) _ hz
    have hl : luma r g b ≤ 255 := by
      unfold luma
      have c1 : (r : ℚ) ≤ 255 := by exact_mod_cast hr
      have c2 : (g : ℚ) ≤ 255 := by exact_mod_cast hg
      have c3 : (b : ℚ) ≤ 255 := by exact_mod_cast hb
      rw [div_le_iff (by norm_num)]
      linarith
    have hlR : ((luma r g b : ℚ) : ℝ) ≤ 255 := by exact_mod_cast hl
    rw [div_le_one (by norm_num)]
    exact hlR
  · unfold rgb_to_gray luma
    norm_num
  · unfold rgb_to_gray luma
    norm_num

/-- Witness for `rgb_to_gray_props` at the black corner. -/
theorem rgb_to_gray_props_witness :
    (0 : ℕ) ≤ 255 ∧ rgb_to_gray 0 0 0 = 0 :=
  ⟨by decide, (rgb_to_gray_props 0 0 0 (by decide) (by decide) (by decide)).2.2.2.2.1⟩

theorem any_range8_unique (q : ℕ → Bool) (i : ℕ) (hi : i < 8) :
    ((List.range 8).any fun j => q j && decide ((7 : ℕ) - j = 7 - i)) = q i := by
  have hr : List.range 8 = [0, 1, 2, 3, 4, 5, 6, 7] := rfl
  rw [hr]
  interval_cases i <;> simp

theorem packByte_testBit (black : ℕ → ℕ → Bool) (width y k i : ℕ) (hi : i < 8) :
    (packByte black width y k).testBit (7 - i)
      = (decide (8 * k + i < width) && black (8 * k + i) y) := by
  unfold packByte
  rw [testBit_orFold (fun j => 8 * k + j < width ∧ black (8 * k + j) y = true),
    Nat.zero_testBit, Bool.false_or,
    any_range8_unique (fun j => decide (8 * k + j < width ∧ black (8 * k + j) y = true)) i hi]
  simp

/-- C7: for rasters whose width is a multiple of 8, packing then unpacking
reproduces every pixel bit: pixel `(x,y)` lives in byte `y*(width/8) + x/8`
at bit `7 - x%8`, bit 7 being the leftmost pixel of the 8-pixel group. -/
theorem pack_unpack (black : ℕ → ℕ → Bool) (width height x y : ℕ)
    (hw : width % 8 = 0) (hx : x < width) (hy : y < height) :
    unpackBit (packBits black width height) width x y = black x y := by
  have hbpr : bytesPerRow width = width / 8 := by
    unfold bytesPerRow
    omega
  have hw8 : 0 < width / 8 := by omega
  have hx8 : x / 8 < width / 8 := by omega
  unfold unpackBit packBits
  rw [hbpr]
  have hidx : y * (width / 8) + x / 8 < width / 8 * height := by
    have h0 := @byteIdx_lt width height y x hy hx
    rw [hbpr] at h0
    exact h0
  rw [getD_range_map _ _ _ _ hidx]
  have hdiv : (y * (width / 8) + x / 8) / (width / 8) = y := by
    rw [Nat.mul_comm, Nat.mul_add_div hw8, Nat.div_eq_of_lt hx8, Nat.add_zero]
  have hmod : (y * (width / 8) + x / 8) % (width / 8) = x / 8 := by
    rw [Nat.add_comm, Nat.add_mul_mod_self_right, Nat.mod_eq_of_lt hx8]
  rw [hdiv, hmod]
  have hm8 : x % 8 < 8 := Nat.mod_lt _ (by omega)
  rw [packByte_testBit black width y (x / 8) (x % 8) hm8, Nat.div_add_mod x 8]
  simp [hx]

/-- Witness for `pack_unpack` on a 16x2 checkerboard at pixel (1,0). -/
theorem pack_unpack_witness :
    (16 : ℕ) % 8 = 0 ∧ (1 : ℕ) < 16 ∧ (0 : ℕ) < 2 ∧
    unpackBit (packBits (fun x y => decide ((x + y) % 2 = 0)) 16 2) 16 1 0 =
      decide ((1 + 0) % 2 = 0) :=
  ⟨by decide, by decide, by decide,
    pack_unpack (fun x y => decide ((x + y) % 2 = 0)) 16 2 1 0 (by decide) (by decide)
      (by decide)⟩

end EM5820
